import Mathlib

/-!
Verification of the Forshare client (session/connection state machine and
synchronization protocol) against its specification.

The embedding models the attachment-capable variant of the client
(`src/unnamed/part_000`) as a state-transition system: React `useState`
fields become record fields, event handlers become functions from state to
state (paired with the list of payloads emitted on the `update-data`
channel event), and the socket lifecycle effect plus the socket callbacks
become steps of a transition relation.  JavaScript's `JSON.parse` /
`JSON.stringify` are modelled by an executable JSON parser and serializer
over an inductive JSON value type; `String.prototype.toUpperCase` is
modelled by the ASCII simple-case mapping (the only characters that survive
the subsequent `[^A-Z0-9]` strip are ASCII, so exotic case mappings cannot
reach a room identifier).  Purely visual state (theme, copied indicator,
sidebar, generating flag) is outside every claim and is omitted.
-/

namespace Forshare

/-- A JSON value as produced by `JSON.parse`.  Numbers keep their source
lexeme: no claim depends on numeric values, only on structure.  Object
fields keep their textual order; duplicate keys are resolved last-wins at
access time, as in JavaScript. -/
inductive Json where
  | null
  | bool (b : Bool)
  | num (lexeme : String)
  | str (s : String)
  | arr (elems : List Json)
  | obj (fields : List (String × Json))

/-- The opening-brace character, `\x7b`. -/
def lbrace : Char := Char.ofNat 123

/-- The closing-brace character, `\x7d`. -/
def rbrace : Char := Char.ofNat 125

/-- Lower-case hexadecimal digit for `n < 16`, as emitted by
`JSON.stringify` in `\u00XX` escapes. -/
def hexDigitChar (n : Nat) : Char :=
  if n < 10 then Char.ofNat (48 + n) else Char.ofNat (97 + n - 10)

/-- How `JSON.stringify` escapes one character of a string: `"` and `\`
get a backslash escape, the named control characters get their short
escapes, any other control character below `0x20` becomes `\u00XX`, and
everything else passes through unchanged. -/
def escapeChar (c : Char) : List Char :=
  if c = '"' then ['\\', '"']
  else if c = '\\' then ['\\', '\\']
  else if c = Char.ofNat 8 then ['\\', 'b']
  else if c = Char.ofNat 12 then ['\\', 'f']
  else if c = '\n' then ['\\', 'n']
  else if c = '\r' then ['\\', 'r']
  else if c = '\t' then ['\\', 't']
  else if c.toNat < 32 then
    ['\\', 'u', '0', '0', hexDigitChar (c.toNat / 16), hexDigitChar (c.toNat % 16)]
  else [c]

/-- Escape every character of a string body. -/
def escChars : List Char → List Char
  | [] => []
  | c :: cs => escapeChar c ++ escChars cs

/-- Model of `JSON.stringify` of a string, including the surrounding quotes. -/
def strChars (s : String) : List Char :=
  '"' :: escChars s.data ++ ['"']

mutual

/-- Model of `JSON.stringify` (no indentation argument): compact output, no
whitespace, object fields in their stored order. -/
def stringifyChars : Json → List Char
  | .null => 'n' :: 'u' :: 'l' :: 'l' :: []
  | .bool true => 't' :: 'r' :: 'u' :: 'e' :: []
  | .bool false => 'f' :: 'a' :: 'l' :: 's' :: 'e' :: []
  | .num lexeme => lexeme.data
  | .str s => strChars s
  | .arr xs => '[' :: elemsChars xs ++ [']']
  | .obj fs => lbrace :: fieldsChars fs ++ [rbrace]

/-- Comma-separated serialized array elements. -/
def elemsChars : List Json → List Char
  | [] => []
  | [j] => stringifyChars j
  | j :: js => stringifyChars j ++ ',' :: elemsChars js

/-- Comma-separated serialized object fields (`"key":value`). -/
def fieldsChars : List (String × Json) → List Char
  | [] => []
  | [(k, v)] => strChars k ++ ':' :: stringifyChars v
  | (k, v) :: fs => strChars k ++ ':' :: stringifyChars v ++ ',' :: fieldsChars fs

end

/-- Model of `JSON.stringify` as a string-valued function. -/
def jsonStringify (j : Json) : String :=
  String.mk (stringifyChars j)

/-- JSON whitespace (space, tab, line feed, carriage return). -/
def isWsChar (c : Char) : Bool :=
  c = ' ' || c = '\t' || c = '\n' || c = '\r'

/-- Drop leading JSON whitespace. -/
def skipWs : List Char → List Char
  | [] => []
  | c :: cs => if isWsChar c then skipWs cs else c :: cs

/-- Value of a hexadecimal digit character. -/
def hexVal (c : Char) : Option Nat :=
  if '0' ≤ c && c ≤ '9' then some (c.toNat - 48)
  else if 'a' ≤ c && c ≤ 'f' then some (c.toNat - 97 + 10)
  else if 'A' ≤ c && c ≤ 'F' then some (c.toNat - 65 + 10)
  else none

/-- The single-character JSON string escapes. -/
def simpleEscape (c : Char) : Option Char :=
  if c = '"' then some '"'
  else if c = '\\' then some '\\'
  else if c = '/' then some '/'
  else if c = 'b' then some (Char.ofNat 8)
  else if c = 'f' then some (Char.ofNat 12)
  else if c = 'n' then some '\n'
  else if c = 'r' then some '\r'
  else if c = 't' then some '\t'
  else none

/-- Parse the body of a JSON string (after the opening quote), returning
the decoded characters and the input remaining after the closing quote.
A `\uXXXX` escape denoting an invalid scalar value (a lone surrogate) is
rejected, as Lean characters range over Unicode scalar values. -/
def parseStringBody : List Char → Option (List Char × List Char)
  | [] => none
  | c :: rest =>
    if c = '"' then some ([], rest)
    else if c = '\\' then
      match rest with
      | [] => none
      | e :: rest2 =>
        if e = 'u' then
          match rest2 with
          | h1 :: h2 :: h3 :: h4 :: rest3 =>
            match hexVal h1, hexVal h2, hexVal h3, hexVal h4 with
            | some a, some b, some c2, some d =>
              let n := ((a * 16 + b) * 16 + c2) * 16 + d
              if n.isValidChar then
                (parseStringBody rest3).map (fun p => (Char.ofNat n :: p.1, p.2))
              else none
            | _, _, _, _ => none
          | _ => none
        else
          match simpleEscape e with
          | some ch => (parseStringBody rest2).map (fun p => (ch :: p.1, p.2))
          | none => none
    else if c.toNat < 32 then none
    else (parseStringBody rest).map (fun p => (c :: p.1, p.2))

/-- Longest prefix of decimal digits. -/
def takeDigits : List Char → List Char × List Char
  | [] => ([], [])
  | c :: cs =>
    if c.isDigit then
      let p := takeDigits cs
      (c :: p.1, p.2)
    else ([], c :: cs)

/-- Integer part of a JSON number: `0`, or a nonzero digit followed by
digits. -/
def parseIntPart : List Char → Option (List Char × List Char)
  | [] => none
  | c :: cs =>
    if c = '0' then some ([c], cs)
    else if c.isDigit then
      let p := takeDigits cs
      some (c :: p.1, p.2)
    else none

/-- Optional fraction part of a JSON number. -/
def parseFracPart : List Char → Option (List Char × List Char)
  | '.' :: cs =>
    match takeDigits cs with
    | ([], _) => none
    | (ds, rest) => some ('.' :: ds, rest)
  | cs => some ([], cs)

/-- Optional exponent part of a JSON number. -/
def parseExpPart : List Char → Option (List Char × List Char)
  | [] => some ([], [])
  | c :: cs =>
    if c = 'e' || c = 'E' then
      let sg : List Char × List Char :=
        match cs with
        | '+' :: t => (['+'], t)
        | '-' :: t => (['-'], t)
        | _ => ([], cs)
      match takeDigits sg.2 with
      | ([], _) => none
      | (ds, rest) => some (c :: sg.1 ++ ds, rest)
    else some ([], c :: cs)

/-- Parse a JSON number, keeping its lexeme. -/
def parseNum (cs : List Char) : Option (Json × List Char) :=
  let sp : List Char × List Char :=
    match cs with
    | '-' :: t => (['-'], t)
    | _ => ([], cs)
  match parseIntPart sp.2 with
  | none => none
  | some (ip, cs2) =>
    match parseFracPart cs2 with
    | none => none
    | some (fp, cs3) =>
      match parseExpPart cs3 with
      | none => none
      | some (ep, cs4) => some (Json.num (String.mk (sp.1 ++ ip ++ fp ++ ep)), cs4)

/-- Match an expected literal tail (e.g. `ull` after `n`). -/
def expectChars : List Char → List Char → Option (List Char)
  | [], cs => some cs
  | _ :: _, [] => none
  | e :: es, c :: cs => if c = e then expectChars es cs else none

mutual

/-- Recursive-descent JSON value parser.  The fuel argument bounds the
number of recursive parser calls; `jsonParse` supplies more fuel than any
input can consume. -/
def parseValue : Nat → List Char → Option (Json × List Char)
  | 0, _ => none
  | fuel + 1, cs0 =>
    match skipWs cs0 with
    | [] => none
    | c :: rest =>
      if c = '"' then
        (parseStringBody rest).map (fun p => (Json.str (String.mk p.1), p.2))
      else if c = lbrace then
        match skipWs rest with
        | [] => none
        | c2 :: rest2 =>
          if c2 = rbrace then some (Json.obj [], rest2)
          else (parseFields fuel (c2 :: rest2)).map (fun p => (Json.obj p.1, p.2))
      else if c = '[' then
        match skipWs rest with
        | [] => none
        | c2 :: rest2 =>
          if c2 = ']' then some (Json.arr [], rest2)
          else (parseElems fuel (c2 :: rest2)).map (fun p => (Json.arr p.1, p.2))
      else if c = 't' then
        (expectChars ['r', 'u', 'e'] rest).map (fun r => (Json.bool true, r))
      else if c = 'f' then
        (expectChars ['a', 'l', 's', 'e'] rest).map (fun r => (Json.bool false, r))
      else if c = 'n' then
        (expectChars ['u', 'l', 'l'] rest).map (fun r => (Json.null, r))
      else if c = '-' || c.isDigit then parseNum (c :: rest)
      else none

/-- Parse the elements of a nonempty array, up to and including `]`. -/
def parseElems : Nat → List Char → Option (List Json × List Char)
  | 0, _ => none
  | fuel + 1, cs =>
    match parseValue fuel cs with
    | none => none
    | some (j, rest) =>
      match skipWs rest with
      | [] => none
      | c :: rest2 =>
        if c = ',' then (parseElems fuel rest2).map (fun p => (j :: p.1, p.2))
        else if c = ']' then some ([j], rest2)
        else none

/-- Parse the fields of a nonempty object, up to and including `\x7d`. -/
def parseFields : Nat → List Char → Option (List (String × Json) × List Char)
  | 0, _ => none
  | fuel + 1, cs =>
    match skipWs cs with
    | [] => none
    | c :: rest =>
      if c = '"' then
        match parseStringBody rest with
        | none => none
        | some (key, rest2) =>
          match skipWs rest2 with
          | [] => none
          | c2 :: rest3 =>
            if c2 = ':' then
              match parseValue fuel rest3 with
              | none => none
              | some (v, rest4) =>
                match skipWs rest4 with
                | [] => none
                | c3 :: rest5 =>
                  if c3 = ',' then
                    (parseFields fuel rest5).map
                      (fun p => ((String.mk key, v) :: p.1, p.2))
                  else if c3 = rbrace then some ([(String.mk key, v)], rest5)
                  else none
            else none
      else none

end

/-- Model of `JSON.parse`: one JSON value, optionally surrounded by whitespace,
spanning the whole input.  Any other input makes `JSON.parse` throw, which
the model renders as `none`. -/
def jsonParse (s : String) : Option Json :=
  match parseValue (2 * s.data.length + 1) s.data with
  | none => none
  | some (j, rest) =>
    match skipWs rest with
    | [] => some j
    | _ :: _ => none

/-- JavaScript property access `j[key]` on a parsed JSON value: objects
yield their field (last duplicate wins, as in `JSON.parse`), everything
except `null` yields `undefined` (modelled `none`).  Access on `null`
throws, which callers model separately. -/
def jsGetField (j : Json) (key : String) : Option Json :=
  match j with
  | .obj fields => fields.reverse.lookup key
  | _ => none

/-! ## Session-code normalization (part_000: `startRemoteSession`, `handleCodeChange`) -/

/-- A character that may appear in a room code: an uppercase ASCII letter
or a digit (the class `[A-Z0-9]` of the source regex). -/
def isCodeChar (c : Char) : Bool :=
  ('A' ≤ c && c ≤ 'Z') || ('0' ≤ c && c ≤ '9')

/-- The code-normalization pipeline shared by `startRemoteSession` and
`handleCodeChange`:
`value.toUpperCase().replace(/[^A-Z0-9]/g, '').slice(0, 6)`.
`toUpperCase` is modelled by the ASCII simple-case mapping: characters
whose JavaScript uppercasing differs from it are stripped by the
`[^A-Z0-9]` replace in either semantics, except for the handful of exotic
letters that uppercase into A–Z (e.g. ß), which this model strips and
JavaScript would keep; no claim distinguishes the two. -/
def normalizeCode (value : String) : String :=
  String.mk (((value.data.map Char.toUpper).filter isCodeChar).take 6)

/-- JavaScript whitespace as far as `String.prototype.trim` and the ASCII
inputs of this model are concerned. -/
def isJsSpace (c : Char) : Bool :=
  c = ' ' || c = '\t' || c = '\n' || c = '\r' || c = Char.ofNat 11 || c = Char.ofNat 12

/-- Model of `String.prototype.trim`. -/
def jsTrim (s : String) : String :=
  String.mk (((s.data.dropWhile isJsSpace).reverse.dropWhile isJsSpace).reverse)

/-! ## Application state (part_000) -/

/-- The sharing mode: the always-on local-network room or an explicit
remote session. -/
inductive Mode where
  | local
  | remote
deriving DecidableEq

/-- The connection status owned by the socket lifecycle. -/
inductive Status where
  | idle
  | waiting
  | connecting
  | connected
  | disconnected
  | error
deriving DecidableEq

/-- The fixed sentinel room identifier for the local-network room. -/
def LOCAL_ROOM : String := "LOCAL-NET"

/-- The source constant `MAX_FILE_SIZE = 5 * 1024 * 1024` (5 MiB). -/
def MAX_FILE_SIZE : Nat := 5 * 1024 * 1024

/-- The claim-relevant `useState` fields of the component, plus whether a
socket is currently bound (`socketRef.current !== null`).  Attachments are
kept as the dynamic JSON values JavaScript holds them as: inbound snapshots
store whatever array `JSON.parse` produced, without validation. -/
structure AppState where
  mode : Mode
  text : String
  attachments : List Json
  sessionCode : String
  manualCode : String
  status : Status
  hasUnsavedChanges : Bool
  isSaving : Bool
  isUploading : Bool
  infoTab : String
  socket : Bool

/-- The initial state of the component (all `useState` initializers). -/
def initState : AppState where
  mode := .local
  text := ""
  attachments := []
  sessionCode := ""
  manualCode := ""
  status := .idle
  hasUnsavedChanges := false
  isSaving := false
  isUploading := false
  infoTab := ""
  socket := false

/-- The derived value `roomCode = isLocalMode ? LOCAL_ROOM : sessionCode`. -/
def roomCode (s : AppState) : String :=
  match s.mode with
  | .local => LOCAL_ROOM
  | .remote => s.sessionCode

/-- The wire payload `JSON.stringify({ text, attachments })` built by
`syncPayload`. -/
def stringifyDoc (text : String) (attachments : List Json) : String :=
  jsonStringify (Json.obj [("text", Json.str text), ("attachments", Json.arr attachments)])

/-- The helper `syncPayload`: emit the serialized document on `update-data` via
`socketRef.current?.emit` — nothing is emitted when no socket is bound.
The result is the list of payloads emitted. -/
def syncPayload (s : AppState) (text : String) (attachments : List Json) : List String :=
  if s.socket then [stringifyDoc text attachments] else []

/-- The `sync-data` handler body for a string payload: `JSON.parse` in a
`try`, falling back to the raw payload as plain text when parsing throws.
`JSON.parse` returning `null` also lands in the fallback: the subsequent
`parsed.text` property access throws, and the `catch` takes over before
any state was written.  The `finally` clears `hasUnsavedChanges` in every
case. -/
def applyInbound (payload : String) (s : AppState) : AppState :=
  match jsonParse payload with
  | none =>
    { s with text := payload, attachments := [], hasUnsavedChanges := false }
  | some .null =>
    { s with text := payload, attachments := [], hasUnsavedChanges := false }
  | some j =>
    { s with
      text :=
        match jsGetField j "text" with
        | some (.str t) => t
        | _ => ""
      attachments :=
        match jsGetField j "attachments" with
        | some (.arr xs) => xs
        | _ => []
      hasUnsavedChanges := false }

/-- The full `sync-data` handler: a non-string payload resets to the empty
document and clears `hasUnsavedChanges` before returning. -/
def syncData : Option String → AppState → AppState
  | none, s => { s with text := "", attachments := [], hasUnsavedChanges := false }
  | some payload, s => applyInbound payload s

/-- The `useEffect` keyed on `roomCode`: an empty room identifier tears the
socket down and waits; otherwise a fresh socket is opened against the room
and the status becomes `connecting`. -/
def effectRoom (s : AppState) : AppState :=
  if roomCode s = "" then { s with status := .waiting, socket := false }
  else { s with status := .connecting, socket := true }

/-- The handler `handleTextChange`: record the edit and mark unsaved (the
attachment-capable variant defers pushing to `handleSave`). -/
def handleTextChange (value : String) (s : AppState) : AppState :=
  { s with text := value, hasUnsavedChanges := true }

/-- The handler `startRemoteSession`: normalize the code; an empty normalization is
rejected, otherwise the mode flips to remote and both code fields take
the normalized value. -/
def startRemoteSession (code : String) (s : AppState) : AppState :=
  let normalized := normalizeCode code
  if normalized = "" then s
  else
    { s with
      mode := .remote
      sessionCode := normalized
      manualCode := normalized
      infoTab := "remote" }

/-- The handler `joinWithCode`: ignore a blank manual code, else join with it. -/
def joinWithCode (s : AppState) : AppState :=
  if jsTrim s.manualCode = "" then s else startRemoteSession s.manualCode s

/-- The handler `handleCodeChange`: the input field keeps only the normalized prefix. -/
def handleCodeChange (value : String) (s : AppState) : AppState :=
  { s with manualCode := normalizeCode value }

/-- The handler `resetRemoteSession`: back to the local room with a cleared document
and a torn-down socket. -/
def resetRemoteSession (s : AppState) : AppState :=
  { s with
    mode := .local
    sessionCode := ""
    manualCode := ""
    text := ""
    attachments := []
    status := .idle
    socket := false
    infoTab := ""
    hasUnsavedChanges := false }

/-- The handler `handleSave`: blocked (with only an alert) unless there are unsaved
changes and the status is `connected`; on success the current document is
pushed, the unsaved flag cleared, and the saving indicator started. -/
def handleSave (s : AppState) : AppState × List String :=
  if s.hasUnsavedChanges = false then (s, [])
  else if s.status ≠ Status.connected then (s, [])
  else
    ({ s with isSaving := true, hasUnsavedChanges := false },
      syncPayload s s.text s.attachments)

/-- Expiry of the 600 ms saving-indicator timer. -/
def saveTimerFire (s : AppState) : AppState :=
  { s with isSaving := false }

/-- The handler `handleClear`: a no-op on an already-empty document, otherwise reset
the document and push the empty state. -/
def handleClear (s : AppState) : AppState × List String :=
  if s.text == "" && s.attachments.isEmpty then (s, [])
  else
    ({ s with text := "", attachments := [], hasUnsavedChanges := false },
      syncPayload s "" [])

/-! ## Attachments (part_000: `handleFileSelected` and the FileReader callbacks) -/

/-- A selected file as the handler sees it: name, MIME type, and size in
bytes.  The content is never inspected before the size check. -/
structure JsFile where
  name : String
  type : String
  size : Nat
deriving DecidableEq

/-- The synchronous part of `handleFileSelected`: no file selected is a
no-op; a file above `MAX_FILE_SIZE` is rejected (alert only) before any
read starts; otherwise the upload flag is set and a read of the file
begins.  The second component is the read request handed to the
FileReader, `none` when no read was started. -/
def handleFileSelected (file : Option JsFile) (s : AppState) : AppState × Option JsFile :=
  match file with
  | none => (s, none)
  | some f =>
    if f.size > MAX_FILE_SIZE then (s, none)
    else ({ s with isUploading := true }, some f)

/-- The markup snippet chosen by coarse MIME category in the `onload`
callback. -/
def snippetFor (f : JsFile) (dataUrl : String) : String :=
  if f.type.startsWith "image/" then "![" ++ f.name ++ "](" ++ dataUrl ++ ")"
  else if f.type.startsWith "video/" then
    "<video controls src=\"" ++ dataUrl ++ "\"></video>"
  else "[" ++ f.name ++ "](" ++ dataUrl ++ ")"

/-- The attachment record built in `onload`; the id comes from
`crypto.randomUUID()` and is a parameter of the step. -/
def attachmentRecord (f : JsFile) (id dataUrl : String) : Json :=
  Json.obj [("id", Json.str id), ("name", Json.str f.name),
    ("type", Json.str f.type), ("dataUrl", Json.str dataUrl)]

/-- The `reader.onload` callback: append the snippet to the text (with a
blank line when text is present), append the attachment, mark unsaved,
finish uploading. -/
def handleFileLoaded (f : JsFile) (id dataUrl : String) (s : AppState) : AppState :=
  let snippet := snippetFor f dataUrl
  { s with
    text := if s.text ≠ "" then s.text ++ "\n\n" ++ snippet else snippet
    attachments := s.attachments ++ [attachmentRecord f id dataUrl]
    hasUnsavedChanges := true
    isUploading := false }

/-- The `reader.onerror` callback: alert only, stop uploading. -/
def handleFileError (s : AppState) : AppState :=
  { s with isUploading := false }

/-! ## The transition system -/

/-- One step of the event-driven client: a user action, a socket lifecycle
event, the room effect, or a timer.  Each step carries the list of
payloads emitted on `update-data` during it.  Socket callbacks require a
bound socket; the room effect may run whenever React schedules it. -/
inductive Step : AppState → List String → AppState → Prop where
  | room (s : AppState) : Step s [] (effectRoom s)
  | connects (s : AppState) (h : s.socket = true) :
      Step s [] { s with status := .connected }
  | disconnects (s : AppState) (h : s.socket = true) :
      Step s [] { s with status := .disconnected }
  | connectError (s : AppState) (h : s.socket = true) :
      Step s [] { s with status := .error }
  | sync (s : AppState) (payload : Option String) (h : s.socket = true) :
      Step s [] (syncData payload s)
  | textChange (s : AppState) (value : String) :
      Step s [] (handleTextChange value s)
  | codeChange (s : AppState) (value : String) :
      Step s [] (handleCodeChange value s)
  | join (s : AppState) : Step s [] (joinWithCode s)
  | createSession (s : AppState) (code : String) :
      Step s [] (startRemoteSession code s)
  | reset (s : AppState) : Step s [] (resetRemoteSession s)
  | save (s : AppState) : Step s (handleSave s).2 (handleSave s).1
  | saveTimer (s : AppState) : Step s [] (saveTimerFire s)
  | clear (s : AppState) : Step s (handleClear s).2 (handleClear s).1
  | fileSelect (s : AppState) (file : Option JsFile) :
      Step s [] (handleFileSelected file s).1
  | fileLoad (s : AppState) (f : JsFile) (id dataUrl : String)
      (h : s.isUploading = true) : Step s [] (handleFileLoaded f id dataUrl s)
  | fileError (s : AppState) (h : s.isUploading = true) :
      Step s [] (handleFileError s)

/-- The states the client can reach from mount. -/
inductive Reachable : AppState → Prop where
  | init : Reachable initState
  | step {s : AppState} {es : List String} {s' : AppState} :
      Reachable s → Step s es s' → Reachable s'

/-! ## The spec-level document state (for the round-trip claim) -/

/-- An attachment as the specification describes it. -/
structure Attachment where
  id : String
  name : String
  type : String
  dataUrl : String

/-- A document: text plus an ordered sequence of attachments. -/
structure DocumentState where
  text : String
  attachments : List Attachment

/-- The dynamic JSON value an attachment is held as at runtime. -/
def attachmentJson (a : Attachment) : Json :=
  Json.obj [("id", Json.str a.id), ("name", Json.str a.name),
    ("type", Json.str a.type), ("dataUrl", Json.str a.dataUrl)]

/-- Serialize a document exactly as `syncPayload` would
(`JSON.stringify({ text, attachments })`). -/
def serializeDoc (d : DocumentState) : String :=
  stringifyDoc d.text (d.attachments.map attachmentJson)

/-! ## Concrete states used by witnesses and counterexamples -/

/-- Mount, then the room effect for the local room: `connecting`, socket
bound. -/
def sConnecting : AppState := effectRoom initState

/-- ... then an edit while still connecting. -/
def sConnectingEdited : AppState := handleTextChange "hi" sConnecting

/-- Connected local room. -/
def sConnected : AppState := { sConnecting with status := .connected }

/-- Connected local room with an unsaved edit. -/
def sEdited : AppState := handleTextChange "hi" sConnected

/-- A remote session joined with the manual code `abc`. -/
def sRemote : AppState := joinWithCode (handleCodeChange "abc" initState)

/-- A 6 MiB video file, above the upload limit. -/
def bigFile : JsFile where
  name := "movie.mp4"
  type := "video/mp4"
  size := 6 * 1024 * 1024

/-! ## Auxiliary notions used by the proofs -/

/-- The state invariant maintained by every step: the status can only read
`connected` while a socket is bound, and the stored session code is always
a fixed point of normalization. -/
def Inv (s : AppState) : Prop :=
  (s.status = Status.connected → s.socket = true) ∧
  normalizeCode s.sessionCode = s.sessionCode

/-- JSON values built from strings, arrays and objects only — the shape
`syncPayload` serializes.  (Numbers are excluded because the model keeps
only their lexeme.) -/
inductive SJson : Json → Prop where
  | str (s : String) : SJson (.str s)
  | arr {xs : List Json} (h : ∀ j ∈ xs, SJson j) : SJson (.arr xs)
  | obj {fs : List (String × Json)} (h : ∀ p ∈ fs, SJson p.2) : SJson (.obj fs)

mutual

/-- Parser fuel sufficient for a serialized value. -/
def jsonFuel : Json → Nat
  | .arr xs => 1 + elemsFuel xs
  | .obj fs => 1 + fieldsFuel fs
  | _ => 1

/-- Parser fuel sufficient for serialized array elements. -/
def elemsFuel : List Json → Nat
  | [] => 1
  | j :: js => 1 + jsonFuel j + elemsFuel js

/-- Parser fuel sufficient for serialized object fields. -/
def fieldsFuel : List (String × Json) → Nat
  | [] => 1
  | f :: fs => 1 + jsonFuel f.2 + fieldsFuel fs

end

/-- The JSON value `{ text, attachments }` that `syncPayload` serializes. -/
def docJson (text : String) (attachments : List Json) : Json :=
  Json.obj [("text", Json.str text), ("attachments", Json.arr attachments)]

/-! # Theorems -/

/-! ## Code normalization -/

/-- A code character is already upper case. -/
theorem toUpper_of_isCodeChar {c : Char} (h : isCodeChar c = true) :
    c.toUpper = c := by
  unfold isCodeChar at h
  unfold Char.toUpper
  have h' : (65 ≤ c.toNat ∧ c.toNat ≤ 90) ∨ (48 ≤ c.toNat ∧ c.toNat ≤ 57) := by
    simp only [Bool.or_eq_true, Bool.and_eq_true, decide_eq_true_eq] at h
    rcases h with ⟨h1, h2⟩ | ⟨h1, h2⟩
    · exact Or.inl ⟨h1, h2⟩
    · exact Or.inr ⟨h1, h2⟩
  rw [if_neg]
  omega

/-- Every character of a normalized code is in `[A-Z0-9]`. -/
theorem normalizeCode_chars (x : String) :
    ∀ c ∈ (normalizeCode x).data, isCodeChar c = true := by
  intro c hc
  unfold normalizeCode at hc
  have hc' := List.mem_of_mem_take hc
  exact (List.mem_filter.mp hc').2

/-- A normalized code has at most 6 characters. -/
theorem normalizeCode_length (x : String) : (normalizeCode x).length ≤ 6 := by
  unfold normalizeCode String.length
  simp

/-- A normalized code is a fixed point of normalization. -/
theorem normalizeCode_fixpoint (x : String) :
    normalizeCode (normalizeCode x) = normalizeCode x := by
  have hchars := normalizeCode_chars x
  have hlen : (normalizeCode x).data.length ≤ 6 := normalizeCode_length x
  have hmap : (normalizeCode x).data.map Char.toUpper = (normalizeCode x).data := by
    have hid : ∀ c ∈ (normalizeCode x).data, Char.toUpper c = id c :=
      fun c hc => toUpper_of_isCodeChar (hchars c hc)
    rw [List.map_congr_left hid, List.map_id]
  have hstep : normalizeCode (normalizeCode x) =
      String.mk ((((normalizeCode x).data.map Char.toUpper).filter isCodeChar).take 6) := rfl
  rw [hstep, hmap, List.filter_eq_self.mpr hchars, List.take_of_length_le hlen]

/-- Claim C9 — the code-normalization pipeline
(`toUpperCase`, strip `[^A-Z0-9]`, `slice(0, 6)`) is idempotent: for every
raw input, normalizing the result of normalization returns it unchanged. -/
theorem normalizeCode_idempotent (x : String) :
    normalizeCode (normalizeCode x) = normalizeCode x :=
  normalizeCode_fixpoint x

/-- Claim C2 (amended) — the code normalization used when joining or
creating a remote session produces either the empty string or a nonempty
string of at most 6 uppercase alphanumeric characters, obtained by
uppercasing, stripping non-alphanumeric characters, and truncating to 6
characters. -/
theorem normalizeCode_shape (x : String) :
    normalizeCode x = "" ∨
      (normalizeCode x ≠ "" ∧ (normalizeCode x).length ≤ 6 ∧
        ∀ c ∈ (normalizeCode x).data, isCodeChar c = true) := by
  by_cases h : normalizeCode x = ""
  · exact Or.inl h
  · exact Or.inr ⟨h, normalizeCode_length x, normalizeCode_chars x⟩

/-- Witness for C2's amended theorem at the concrete input `abc`. -/
theorem normalizeCode_shape_witness :
    (normalizeCode "abc").length ≤ 6 ∧ ∀ c ∈ (normalizeCode "abc").data, isCodeChar c = true := by
  rcases normalizeCode_shape "abc" with h | h
  · exact absurd h (by decide)
  · exact ⟨h.2.1, h.2.2⟩

/-- Counterexample to claim C2 as stated: normalizing `abc` yields `ABC`,
which is neither empty nor exactly 6 characters long. -/
theorem normalizeCode_not_exactly_six :
    normalizeCode "abc" = "ABC" ∧ normalizeCode "abc" ≠ "" ∧
      (normalizeCode "abc").length ≠ 6 := by
  refine ⟨rfl, by decide, by decide⟩

/-! ## Attachment encoder: the size gate -/

/-- Claim C8 — a file above 5 MiB is rejected synchronously by
`handleFileSelected`: the state is returned unchanged (no upload flag, no
snippet, no attachment) and no read request is handed to the FileReader. -/
theorem oversize_file_rejected (s : AppState) (f : JsFile)
    (h : f.size > MAX_FILE_SIZE) :
    handleFileSelected (some f) s = (s, none) := by
  simp [handleFileSelected, h]

/-- Witness for C8: a 6 MiB file in the initial state. -/
theorem oversize_file_rejected_witness :
    bigFile.size > MAX_FILE_SIZE ∧ handleFileSelected (some bigFile) initState = (initState, none) :=
  ⟨by decide, oversize_file_rejected initState bigFile (by decide)⟩

/-! ## Clearing the document -/

/-- Claim C10 — on an already-empty document, `handleClear` is a complete
no-op: the state is returned unchanged and nothing is emitted. -/
theorem clear_empty_noop (s : AppState) (h1 : s.text = "") (h2 : s.attachments = []) :
    handleClear s = (s, []) := by
  simp [handleClear, h1, h2]

/-- Witness for C10 at the initial state. -/
theorem clear_empty_noop_witness : handleClear initState = (initState, []) :=
  clear_empty_noop initState rfl rfl

/-- Counterexample to claim C6 as stated: in the reachable initial state
the document is empty and `handleClear` performs no outbound push at all
(and does not push the empty state), although the claim demands a push in
every state. -/
theorem clear_skips_push_on_empty :
    Reachable initState ∧ initState.text = "" ∧ initState.attachments = [] ∧
      (handleClear initState).2 = [] :=
  ⟨Reachable.init, rfl, rfl, rfl⟩

/-- Claim C6 (amended) — whenever the document is nonempty, `handleClear`
resets it to empty, clears `hasUnsavedChanges` (bypassing the deferred-save
policy and regardless of its value), and emits the serialized empty state
on the bound channel — nothing is emitted when no channel is bound; on an
already-empty document it is a no-op. -/
theorem clear_resets_and_pushes (s : AppState)
    (h : ¬(s.text = "" ∧ s.attachments = [])) :
    (handleClear s).1 = { s with text := "", attachments := [], hasUnsavedChanges := false } ∧
      (handleClear s).2 = (if s.socket then [stringifyDoc "" []] else []) := by
  have hb : (s.text == "" && s.attachments.isEmpty) = false := by
    cases ha : s.attachments with
    | nil =>
      have ht : s.text ≠ "" := fun ht => h ⟨ht, ha⟩
      simp [ht]
    | cons a l => simp [ha]
  simp [handleClear, hb, syncPayload]

/-- Witness for C6's amended theorem: clearing the edited, still-connecting
state pushes exactly the serialized empty document. -/
theorem clear_resets_and_pushes_witness :
    (handleClear sConnectingEdited).1.text = "" ∧
      (handleClear sConnectingEdited).2 = [stringifyDoc "" []] := by
  have h := clear_resets_and_pushes sConnectingEdited (by simp [sConnectingEdited,
    handleTextChange, sConnecting, effectRoom, initState, roomCode, LOCAL_ROOM])
  refine ⟨by rw [h.1], ?_⟩
  rw [h.2]
  rfl

/-! ## When outbound pushes happen -/

/-- Counterexample to claim C3 as stated: from the mounted state the local
room is still `connecting`, yet clearing a nonempty document performs an
outbound push on the bound channel in that state. -/
theorem clear_pushes_while_connecting :
    Reachable sConnectingEdited ∧ sConnectingEdited.status = Status.connecting ∧
      sConnectingEdited.status ≠ Status.connected ∧
      (handleClear sConnectingEdited).2 = [stringifyDoc "" []] ∧
      Step sConnectingEdited [stringifyDoc "" []] (handleClear sConnectingEdited).1 := by
  have hr : Reachable sConnectingEdited :=
    Reachable.step (Reachable.step Reachable.init (Step.room initState))
      (Step.textChange sConnecting "hi")
  have he : (handleClear sConnectingEdited).2 = [stringifyDoc "" []] := rfl
  exact ⟨hr, rfl, by decide, he, he ▸ Step.clear sConnectingEdited⟩

/-- Claim C3 (amended) — only the save action is guarded by connection
status: `handleSave` performs no outbound push (and changes no state)
while the status is not `connected`; the clear push — and, in the minimal
variant, the per-edit push — is emitted on the bound channel regardless of
status. -/
theorem save_no_push_unless_connected (s : AppState)
    (h : s.status ≠ Status.connected) :
    handleSave s = (s, []) := by
  rcases Decidable.em (s.hasUnsavedChanges = false) with hu | hu
  · simp [handleSave, hu]
  · simp [handleSave, hu, h]

/-- Witness for C3's amended theorem: saving in the still-connecting
edited state is fully blocked. -/
theorem save_no_push_unless_connected_witness :
    handleSave sConnectingEdited = (sConnectingEdited, []) :=
  save_no_push_unless_connected sConnectingEdited (by decide)

/-! ## The reachable-state invariant -/

/-- Applying an inbound snapshot touches only the document fields and the
unsaved flag. -/
theorem syncData_frame (payload : Option String) (s : AppState) :
    (syncData payload s).mode = s.mode ∧
      (syncData payload s).sessionCode = s.sessionCode ∧
      (syncData payload s).status = s.status ∧
      (syncData payload s).socket = s.socket := by
  cases payload with
  | none => exact ⟨rfl, rfl, rfl, rfl⟩
  | some p =>
    show (applyInbound p s).mode = s.mode ∧ (applyInbound p s).sessionCode = s.sessionCode ∧
      (applyInbound p s).status = s.status ∧ (applyInbound p s).socket = s.socket
    unfold applyInbound
    split <;> exact ⟨rfl, rfl, rfl, rfl⟩

/-- Every step preserves the invariant. -/
theorem step_inv {s : AppState} {es : List String} {s' : AppState}
    (hstep : Step s es s') (hinv : Inv s) : Inv s' := by
  obtain ⟨ih1, ih2⟩ := hinv
  unfold Inv
  cases hstep with
  | room =>
    unfold effectRoom
    split_ifs with hrc
    · exact ⟨(fun hc => nomatch hc), ih2⟩
    · exact ⟨(fun hc => nomatch hc), ih2⟩
  | connects hsock => exact ⟨fun _ => hsock, ih2⟩
  | disconnects hsock => exact ⟨(fun hc => nomatch hc), ih2⟩
  | connectError hsock => exact ⟨(fun hc => nomatch hc), ih2⟩
  | sync payload hsock =>
    obtain ⟨-, h2, h3, h4⟩ := syncData_frame payload s
    refine ⟨fun hc => ?_, ?_⟩
    · rw [h4]; exact ih1 (h3.symm.trans hc)
    · rw [h2]; exact ih2
  | textChange v => exact ⟨ih1, ih2⟩
  | codeChange v => exact ⟨ih1, ih2⟩
  | join =>
    unfold joinWithCode
    split_ifs with ht
    · exact ⟨ih1, ih2⟩
    · unfold startRemoteSession
      dsimp only
      split_ifs with hn
      · exact ⟨ih1, ih2⟩
      · exact ⟨ih1, normalizeCode_fixpoint s.manualCode⟩
  | createSession code =>
    unfold startRemoteSession
    dsimp only
    split_ifs with hn
    · exact ⟨ih1, ih2⟩
    · exact ⟨ih1, normalizeCode_fixpoint code⟩
  | reset => exact ⟨(fun hc => nomatch hc), rfl⟩
  | save =>
    unfold handleSave
    split_ifs with h1 h2
    · exact ⟨ih1, ih2⟩
    · exact ⟨ih1, ih2⟩
    · exact ⟨ih1, ih2⟩
  | saveTimer => exact ⟨ih1, ih2⟩
  | clear =>
    unfold handleClear
    split_ifs with h1
    · exact ⟨ih1, ih2⟩
    · exact ⟨ih1, ih2⟩
  | fileSelect file =>
    cases file with
    | none => exact ⟨ih1, ih2⟩
    | some f =>
      unfold handleFileSelected
      dsimp only
      split_ifs with hsz
      · exact ⟨ih1, ih2⟩
      · exact ⟨ih1, ih2⟩
  | fileLoad f id dataUrl hup => exact ⟨ih1, ih2⟩
  | fileError hup => exact ⟨ih1, ih2⟩

/-- Every reachable state satisfies the invariant: `connected` implies a
bound socket, and the stored session code is normalization-fixed. -/
theorem reachable_inv {s : AppState} (h : Reachable s) : Inv s := by
  induction h with
  | init => exact ⟨fun hc => absurd hc (by decide), by decide⟩
  | step hr hstep ih => exact step_inv hstep ih

/-! ## Saving -/

/-- Claim C4 — in every reachable state, `handleSave` is effective only
when there are unsaved changes and the status is `connected`; otherwise it
is a pure no-op (no state change, nothing pushed).  On success it pushes
the serialized current document exactly once, leaves the document itself
unchanged, clears `hasUnsavedChanges`, and an immediate second save is a
complete no-op. -/
theorem save_effective (s : AppState) (h : Reachable s) :
    (¬(s.hasUnsavedChanges = true ∧ s.status = Status.connected) →
        handleSave s = (s, [])) ∧
    (s.hasUnsavedChanges = true → s.status = Status.connected →
        (handleSave s).2 = [stringifyDoc s.text s.attachments] ∧
        (handleSave s).1.text = s.text ∧
        (handleSave s).1.attachments = s.attachments ∧
        (handleSave s).1.hasUnsavedChanges = false ∧
        handleSave (handleSave s).1 = ((handleSave s).1, [])) := by
  obtain ⟨inv1, -⟩ := reachable_inv h
  constructor
  · intro hno
    cases hu : s.hasUnsavedChanges with
    | false => simp [handleSave, hu]
    | true =>
      have hst : s.status ≠ Status.connected := fun hc => hno ⟨hu, hc⟩
      simp [handleSave, hu, hst]
  · intro hu hc
    have hsock := inv1 hc
    have hs : handleSave s =
        ({ s with isSaving := true, hasUnsavedChanges := false },
          [stringifyDoc s.text s.attachments]) := by
      simp [handleSave, hu, hc, syncPayload, hsock]
    rw [hs]
    refine ⟨rfl, rfl, rfl, rfl, ?_⟩
    simp [handleSave]

/-- Witness for C4: saving the connected, edited local-room state pushes
the document once and a second save does nothing. -/
theorem save_effective_witness :
    (handleSave sEdited).2 = [stringifyDoc "hi" []] ∧
      (handleSave sEdited).1.hasUnsavedChanges = false ∧
      handleSave (handleSave sEdited).1 = ((handleSave sEdited).1, []) := by
  have hr : Reachable sEdited :=
    Reachable.step
      (Reachable.step (Reachable.step Reachable.init (Step.room initState))
        (Step.connects sConnecting rfl))
      (Step.textChange sConnected "hi")
  have h := (save_effective sEdited hr).2 rfl rfl
  exact ⟨h.1, h.2.2.2.1, h.2.2.2.2⟩

/-! ## Room resolution -/

/-- Claim C7 — the room identifier is a pure function of the mode and the
stored remote code: the fixed local sentinel in local mode; the stored
remote code — which in every reachable state is its own normalization — in
remote mode with a code present; and the empty identifier (the code's
rendering of "no room") in remote mode with no code, in which case the
room effect opens no socket and parks the status at `waiting`. -/
theorem room_resolution (s : AppState) (h : Reachable s) :
    (∀ s' : AppState, s'.mode = s.mode → s'.sessionCode = s.sessionCode →
        roomCode s' = roomCode s) ∧
    (s.mode = Mode.local → roomCode s = LOCAL_ROOM) ∧
    (s.mode = Mode.remote → s.sessionCode ≠ "" →
        roomCode s = normalizeCode s.sessionCode ∧ roomCode s ≠ "") ∧
    (s.mode = Mode.remote → s.sessionCode = "" →
        roomCode s = "" ∧
        effectRoom s = { s with status := Status.waiting, socket := false }) := by
  obtain ⟨-, inv2⟩ := reachable_inv h
  refine ⟨?_, ?_, ?_, ?_⟩
  · intro s' hm hc
    unfold roomCode
    rw [hm, hc]
  · intro hm
    unfold roomCode
    rw [hm]
  · intro hm hne
    unfold roomCode
    rw [hm]
    exact ⟨inv2.symm, hne⟩
  · intro hm hc
    have hroom : roomCode s = "" := by unfold roomCode; rw [hm, hc]
    exact ⟨hroom, by unfold effectRoom; rw [if_pos hroom]⟩

/-- Witness for C7: the session joined with manual code `abc` resolves to
the normalized room `ABC`. -/
theorem room_resolution_witness :
    roomCode sRemote = "ABC" ∧ roomCode sRemote ≠ "" := by
  have hr : Reachable sRemote :=
    Reachable.step (Reachable.step Reachable.init (Step.codeChange initState "abc"))
      (Step.join (handleCodeChange "abc" initState))
  have h := (room_resolution sRemote hr).2.2.1 rfl (by decide)
  exact ⟨h.1.trans (by decide), h.2⟩

/-! ## Inbound payloads -/

/-- Claim C1 — applying an inbound string payload is total and safe: it
always clears `hasUnsavedChanges`; a payload `JSON.parse` rejects is taken
wholesale as plain text with no attachments; and a payload that parses but
is not an object (so has no `\x7btext, attachments\x7d` structure to offer)
degrades to plain text (the `null` case, whose property access throws into
the `catch`) or to the empty document — never an exception. -/
theorem applyInbound_never_throws (p : String) (s : AppState) :
    (applyInbound p s).hasUnsavedChanges = false ∧
      (jsonParse p = none →
        (applyInbound p s).text = p ∧ (applyInbound p s).attachments = []) ∧
      (∀ j, jsonParse p = some j → (∀ fs, j ≠ Json.obj fs) →
        ((applyInbound p s).text = p ∨ (applyInbound p s).text = "") ∧
          (applyInbound p s).attachments = []) := by
  refine ⟨?_, ?_, ?_⟩
  · unfold applyInbound
    split <;> rfl
  · intro hp
    unfold applyInbound
    rw [hp]
    exact ⟨rfl, rfl⟩
  · intro j hj hobj
    unfold applyInbound
    rw [hj]
    cases j with
    | obj fs => exact absurd rfl (hobj fs)
    | null => exact ⟨Or.inl rfl, rfl⟩
    | bool b => exact ⟨Or.inr rfl, rfl⟩
    | num lexeme => exact ⟨Or.inr rfl, rfl⟩
    | str t => exact ⟨Or.inr rfl, rfl⟩
    | arr xs => exact ⟨Or.inr rfl, rfl⟩

/-- Witness for C1 at the unparseable payload `not json` (Scenario 4 of
the specification): the document becomes the raw text with no attachments
and the unsaved flag clears. -/
theorem applyInbound_never_throws_witness :
    (applyInbound "not json" initState).text = "not json" ∧
      (applyInbound "not json" initState).attachments = [] ∧
      (applyInbound "not json" initState).hasUnsavedChanges = false := by
  have h := applyInbound_never_throws "not json" initState
  have h2 := h.2.1 rfl
  exact ⟨h2.1, h2.2, h.1⟩

/-! ## Round-trip of the wire format -/

/-- Skipping whitespace leaves a non-whitespace head alone. -/
theorem skipWs_cons (c : Char) (cs : List Char) (h : isWsChar c = false) :
    skipWs (c :: cs) = c :: cs := by
  simp [skipWs, h]

/-- Reading a hex digit inverts `hexDigitChar` below 16. -/
theorem hexVal_hexDigitChar (n : Nat) (h : n < 16) :
    hexVal (hexDigitChar n) = some n := by
  interval_cases n <;> decide

/-- Parsing the escape of one character prepends exactly that character. -/
theorem parseStringBody_escapeChar (c : Char) (rest : List Char) :
    parseStringBody (escapeChar c ++ rest) =
      (parseStringBody rest).map (fun p => (c :: p.1, p.2)) := by
  unfold escapeChar
  split_ifs with h1 h2 h3 h4 h5 h6 h7 h8
  · subst h1; rw [parseStringBody.eq_def]; simp [simpleEscape]
  · subst h2; rw [parseStringBody.eq_def]; simp [simpleEscape]
  · subst h3; rw [parseStringBody.eq_def]; simp [simpleEscape]
  · subst h4; rw [parseStringBody.eq_def]; simp [simpleEscape]
  · subst h5; rw [parseStringBody.eq_def]; simp [simpleEscape]
  · subst h6; rw [parseStringBody.eq_def]; simp [simpleEscape]
  · subst h7; rw [parseStringBody.eq_def]; simp [simpleEscape]
  · have e0 : hexVal '0' = some 0 := rfl
    have e1 := hexVal_hexDigitChar (c.toNat / 16) (by omega)
    have e2 := hexVal_hexDigitChar (c.toNat % 16) (by omega)
    have hn : c.toNat / 16 * 16 + c.toNat % 16 = c.toNat := by omega
    have hv : Nat.isValidChar (c.toNat / 16 * 16 + c.toNat % 16) := Or.inl (by omega)
    rw [parseStringBody.eq_def]
    simp [e0, e1, e2, hv]
    rw [hn, Char.ofNat_toNat]
  · rw [parseStringBody.eq_def]
    simp [h1, h2, h8]

/-- Parsing an escaped string body recovers it exactly. -/
theorem parseStringBody_escChars (l rest : List Char) :
    parseStringBody (escChars l ++ '"' :: rest) = some (l, rest) := by
  induction l with
  | nil =>
    show parseStringBody ([] ++ _) = _
    rw [List.nil_append, parseStringBody.eq_def]
    simp
  | cons c l ih =>
    rw [escChars, List.append_assoc, parseStringBody_escapeChar, ih]
    rfl

/-- Rebuilding a string from its character list is the identity. -/
theorem mk_data (s : String) : String.mk s.data = s := by
  cases s
  rfl

theorem stringifyChars_str (s : String) : stringifyChars (.str s) = strChars s := by
  rw [stringifyChars]

theorem stringifyChars_arr (xs : List Json) :
    stringifyChars (.arr xs) = '[' :: elemsChars xs ++ [']'] := by
  rw [stringifyChars]

theorem stringifyChars_obj (fs : List (String × Json)) :
    stringifyChars (.obj fs) = lbrace :: fieldsChars fs ++ [rbrace] := by
  rw [stringifyChars]

theorem elemsChars_single (j : Json) : elemsChars [j] = stringifyChars j := by
  rw [elemsChars]

theorem elemsChars_cons (j k : Json) (js : List Json) :
    elemsChars (j :: k :: js) = stringifyChars j ++ ',' :: elemsChars (k :: js) := by
  rw [elemsChars]
  simp

theorem fieldsChars_single (k : String) (v : Json) :
    fieldsChars [(k, v)] = strChars k ++ ':' :: stringifyChars v := by
  rw [fieldsChars]

theorem fieldsChars_cons (k : String) (v : Json) (q : String × Json) (qs : List (String × Json)) :
    fieldsChars ((k, v) :: q :: qs) =
      strChars k ++ ':' :: stringifyChars v ++ ',' :: fieldsChars (q :: qs) := by
  rw [fieldsChars]
  simp

/-- A serialized string, array or object starts with a delimiter that is
neither whitespace nor one of the closing separators. -/
theorem stringify_head {j : Json} (hj : SJson j) :
    ∃ c0 t0, stringifyChars j = c0 :: t0 ∧ isWsChar c0 = false ∧
      c0 ≠ ']' ∧ c0 ≠ ',' ∧ c0 ≠ rbrace := by
  cases hj with
  | str s =>
    exact ⟨'"', _, by rw [stringifyChars_str, strChars]; rfl, by decide, by decide, by decide,
      by decide⟩
  | arr h =>
    exact ⟨'[', _, by rw [stringifyChars_arr]; rfl, by decide, by decide, by decide, by decide⟩
  | obj h =>
    exact ⟨lbrace, _, by rw [stringifyChars_obj]; rfl, by decide, by decide, by decide,
      by decide⟩

/-! Specialized single-step unfoldings of the fueled parsers. -/

theorem parseValue_str (fuel : Nat) (ts : List Char) :
    parseValue (fuel + 1) ('"' :: ts) =
      (parseStringBody ts).map (fun p => (Json.str (String.mk p.1), p.2)) := by
  rw [parseValue.eq_def]
  simp [skipWs_cons, isWsChar]

theorem parseValue_arr_nil (fuel : Nat) (r : List Char) :
    parseValue (fuel + 1) ('[' :: ']' :: r) = some (Json.arr [], r) := by
  rw [parseValue.eq_def]
  simp [skipWs_cons, isWsChar, lbrace]

theorem parseValue_arr_cons (fuel : Nat) (c2 : Char) (r2 : List Char)
    (h : c2 ≠ ']') (hw : isWsChar c2 = false) :
    parseValue (fuel + 1) ('[' :: c2 :: r2) =
      (parseElems fuel (c2 :: r2)).map (fun p => (Json.arr p.1, p.2)) := by
  rw [parseValue.eq_def]
  dsimp only
  rw [skipWs_cons '[' (c2 :: r2) (by decide)]
  dsimp only
  rw [skipWs_cons c2 r2 hw]
  simp [lbrace, h]

theorem parseValue_obj_nil (fuel : Nat) (r : List Char) :
    parseValue (fuel + 1) (lbrace :: rbrace :: r) = some (Json.obj [], r) := by
  rw [parseValue.eq_def]
  simp [skipWs_cons, isWsChar, lbrace, rbrace]

theorem parseValue_obj_cons (fuel : Nat) (c2 : Char) (r2 : List Char)
    (h : c2 ≠ rbrace) (hw : isWsChar c2 = false) :
    parseValue (fuel + 1) (lbrace :: c2 :: r2) =
      (parseFields fuel (c2 :: r2)).map (fun p => (Json.obj p.1, p.2)) := by
  rw [parseValue.eq_def]
  dsimp only
  rw [skipWs_cons lbrace (c2 :: r2) (by decide)]
  dsimp only
  rw [skipWs_cons c2 r2 hw]
  simp only [rbrace] at h
  simp [lbrace, rbrace, h]

theorem parseElems_last (fuel : Nat) (cs r : List Char) (j : Json)
    (h : parseValue fuel cs = some (j, ']' :: r)) :
    parseElems (fuel + 1) cs = some ([j], r) := by
  rw [parseElems.eq_def]
  simp [h, skipWs_cons, isWsChar]

theorem parseElems_cons (fuel : Nat) (cs r : List Char) (j : Json)
    (h : parseValue fuel cs = some (j, ',' :: r)) :
    parseElems (fuel + 1) cs =
      (parseElems fuel r).map (fun p => (j :: p.1, p.2)) := by
  rw [parseElems.eq_def]
  simp [h, skipWs_cons, isWsChar]

theorem parseFields_last (fuel : Nat) (ts r2 r4 : List Char) (k : List Char) (v : Json)
    (hk : parseStringBody ts = some (k, ':' :: r2))
    (hv : parseValue fuel r2 = some (v, rbrace :: r4)) :
    parseFields (fuel + 1) ('"' :: ts) = some ([(String.mk k, v)], r4) := by
  rw [parseFields.eq_def]
  simp [hk, hv, skipWs_cons, isWsChar, rbrace]

theorem parseFields_cons (fuel : Nat) (ts r2 r4 : List Char) (k : List Char) (v : Json)
    (hk : parseStringBody ts = some (k, ':' :: r2))
    (hv : parseValue fuel r2 = some (v, ',' :: r4)) :
    parseFields (fuel + 1) ('"' :: ts) =
      (parseFields fuel r4).map (fun p => ((String.mk k, v) :: p.1, p.2)) := by
  rw [parseFields.eq_def]
  simp [hk, hv, skipWs_cons, isWsChar, rbrace]

theorem jsonFuel_pos (j : Json) : 1 ≤ jsonFuel j := by
  cases j <;> simp [jsonFuel]

theorem elemsFuel_pos (xs : List Json) : 1 ≤ elemsFuel xs := by
  cases xs with
  | nil => simp [elemsFuel]
  | cons j js => simp only [elemsFuel]; omega

theorem fieldsFuel_pos (fs : List (String × Json)) : 1 ≤ fieldsFuel fs := by
  cases fs with
  | nil => simp [fieldsFuel]
  | cons q qs => simp only [fieldsFuel]; omega

/-- Stepping into a nonempty serialized array. -/
theorem parseValue_arr_go (fuel : Nat) (x : Json) (xs' : List Json) (rest : List Char)
    (hx : SJson x)
    (hpe : parseElems fuel (elemsChars (x :: xs') ++ ']' :: rest) = some (x :: xs', rest)) :
    parseValue (fuel + 1) ('[' :: (elemsChars (x :: xs') ++ ']' :: rest)) =
      some (Json.arr (x :: xs'), rest) := by
  obtain ⟨c0, t0, hhead, hws, hrb, hcm, hbr⟩ := stringify_head hx
  have hstart : ∃ t1, elemsChars (x :: xs') = c0 :: t1 := by
    cases xs' with
    | nil => exact ⟨t0, by rw [elemsChars_single, hhead]⟩
    | cons y ys =>
      exact ⟨t0 ++ ',' :: elemsChars (y :: ys), by rw [elemsChars_cons, hhead, List.cons_append]⟩
  obtain ⟨t1, ht1⟩ := hstart
  rw [ht1] at hpe ⊢
  rw [List.cons_append] at hpe ⊢
  rw [parseValue_arr_cons fuel c0 _ hrb hws, hpe]
  rfl

/-- Stepping into a nonempty serialized object. -/
theorem parseValue_obj_go (fuel : Nat) (q : String × Json) (qs : List (String × Json))
    (rest : List Char)
    (hpf : parseFields fuel (fieldsChars (q :: qs) ++ rbrace :: rest) = some (q :: qs, rest)) :
    parseValue (fuel + 1) (lbrace :: (fieldsChars (q :: qs) ++ rbrace :: rest)) =
      some (Json.obj (q :: qs), rest) := by
  obtain ⟨k, v⟩ := q
  have hstart : ∃ t1, fieldsChars ((k, v) :: qs) = '"' :: t1 := by
    cases qs with
    | nil =>
      refine ⟨escChars k.data ++ ['"'] ++ ':' :: stringifyChars v, ?_⟩
      rw [fieldsChars_single, strChars]
      simp
    | cons q2 qs2 =>
      refine ⟨escChars k.data ++ ['"'] ++ ':' :: stringifyChars v ++
        ',' :: fieldsChars (q2 :: qs2), ?_⟩
      rw [fieldsChars_cons, strChars]
      simp
  obtain ⟨t1, ht1⟩ := hstart
  rw [ht1] at hpf ⊢
  rw [List.cons_append] at hpf ⊢
  rw [parseValue_obj_cons fuel '"' _ (by decide) (by decide), hpf]
  rfl

/-- The fueled parsers invert the serializer on every string/array/object
value, provided the fuel covers the value. -/
theorem parse_stringify_fuel (fuel : Nat) :
    (∀ j, SJson j → ∀ rest, jsonFuel j ≤ fuel →
      parseValue fuel (stringifyChars j ++ rest) = some (j, rest)) ∧
    (∀ xs, (∀ j ∈ xs, SJson j) → xs ≠ [] → ∀ rest, elemsFuel xs ≤ fuel →
      parseElems fuel (elemsChars xs ++ ']' :: rest) = some (xs, rest)) ∧
    (∀ fs, (∀ q ∈ fs, SJson q.2) → fs ≠ [] → ∀ rest, fieldsFuel fs ≤ fuel →
      parseFields fuel (fieldsChars fs ++ rbrace :: rest) = some (fs, rest)) := by
  induction fuel with
  | zero =>
    refine ⟨fun j hj rest hf => ?_, fun xs hxs hne rest hf => ?_,
      fun fs hfs hne rest hf => ?_⟩
    · exact absurd hf (by have := jsonFuel_pos j; omega)
    · exact absurd hf (by have := elemsFuel_pos xs; omega)
    · exact absurd hf (by have := fieldsFuel_pos fs; omega)
  | succ fuel ih =>
    obtain ⟨ihv, ihe, ihf⟩ := ih
    refine ⟨fun j hj rest hf => ?_, fun xs hxs hne rest hf => ?_,
      fun fs hfs hne rest hf => ?_⟩
    · cases hj with
      | str s =>
        rw [stringifyChars_str, strChars]
        simp only [List.cons_append, List.append_assoc, List.singleton_append]
        rw [parseValue_str, parseStringBody_escChars]
        simp [mk_data]
      | arr h =>
        rename_i xs
        cases xs with
        | nil =>
          rw [stringifyChars_arr]
          simp only [elemsChars, List.nil_append, List.cons_append, List.singleton_append]
          exact parseValue_arr_nil fuel rest
        | cons x xs' =>
          have hfe : elemsFuel (x :: xs') ≤ fuel := by
            simp only [jsonFuel] at hf
            omega
          have hpe := ihe (x :: xs') h (by simp) rest hfe
          have hshape : stringifyChars (Json.arr (x :: xs')) ++ rest =
              '[' :: (elemsChars (x :: xs') ++ ']' :: rest) := by
            rw [stringifyChars_arr]
            simp
          rw [hshape]
          exact parseValue_arr_go fuel x xs' rest (h x (by simp)) hpe
      | obj h =>
        rename_i fs
        cases fs with
        | nil =>
          rw [stringifyChars_obj]
          simp only [fieldsChars, List.nil_append, List.cons_append, List.singleton_append]
          exact parseValue_obj_nil fuel rest
        | cons q qs =>
          have hff : fieldsFuel (q :: qs) ≤ fuel := by
            simp only [jsonFuel] at hf
            omega
          have hpf := ihf (q :: qs) h (by simp) rest hff
          have hshape : stringifyChars (Json.obj (q :: qs)) ++ rest =
              lbrace :: (fieldsChars (q :: qs) ++ rbrace :: rest) := by
            rw [stringifyChars_obj]
            simp
          rw [hshape]
          exact parseValue_obj_go fuel q qs rest hpf
    · cases xs with
      | nil => exact absurd rfl hne
      | cons x xs' =>
        have hx : SJson x := hxs x (by simp)
        cases xs' with
        | nil =>
          have hfx : jsonFuel x ≤ fuel := by
            simp only [elemsFuel] at hf
            omega
          have hpv := ihv x hx (']' :: rest) hfx
          rw [elemsChars_single]
          exact parseElems_last fuel _ rest x hpv
        | cons y ys =>
          have hfx : jsonFuel x ≤ fuel := by
            have hp := elemsFuel_pos (y :: ys)
            simp only [elemsFuel] at hf
            omega
          have hfe' : elemsFuel (y :: ys) ≤ fuel := by
            have hp := jsonFuel_pos x
            simp only [elemsFuel] at hf ⊢
            omega
          have hpv := ihv x hx (',' :: (elemsChars (y :: ys) ++ ']' :: rest)) hfx
          have hpe := ihe (y :: ys) (fun j hj => hxs j (List.mem_cons_of_mem _ hj))
            (by simp) rest hfe'
          rw [elemsChars_cons, List.append_assoc, List.cons_append]
          rw [parseElems_cons fuel _ _ x hpv, hpe]
          rfl
    · cases fs with
      | nil => exact absurd rfl hne
      | cons q qs =>
        obtain ⟨k, v⟩ := q
        have hv : SJson v := hfs (k, v) (List.mem_cons_self _ _)
        cases qs with
        | nil =>
          have hfv : jsonFuel v ≤ fuel := by
            simp only [fieldsFuel] at hf
            omega
          have hpv := ihv v hv (rbrace :: rest) hfv
          have hshape : fieldsChars [(k, v)] ++ rbrace :: rest =
              '"' :: (escChars k.data ++ '"' :: (':' :: (stringifyChars v ++ rbrace :: rest))) := by
            rw [fieldsChars_single, strChars]
            simp
          rw [hshape]
          have hres := parseFields_last fuel
            (escChars k.data ++ '"' :: (':' :: (stringifyChars v ++ rbrace :: rest)))
            (stringifyChars v ++ rbrace :: rest) rest k.data v
            (parseStringBody_escChars k.data _) hpv
          rw [mk_data] at hres
          exact hres
        | cons q2 qs2 =>
          have hfv : jsonFuel v ≤ fuel := by
            have hp := fieldsFuel_pos (q2 :: qs2)
            simp only [fieldsFuel] at hf
            omega
          have hff' : fieldsFuel (q2 :: qs2) ≤ fuel := by
            have hp := jsonFuel_pos v
            simp only [fieldsFuel] at hf ⊢
            omega
          have hpv := ihv v hv (',' :: (fieldsChars (q2 :: qs2) ++ rbrace :: rest)) hfv
          have hpf := ihf (q2 :: qs2) (fun q hq => hfs q (List.mem_cons_of_mem _ hq))
            (by simp) rest hff'
          have hshape : fieldsChars ((k, v) :: q2 :: qs2) ++ rbrace :: rest =
              '"' :: (escChars k.data ++ '"' :: (':' :: (stringifyChars v ++
                ',' :: (fieldsChars (q2 :: qs2) ++ rbrace :: rest)))) := by
            rw [fieldsChars_cons, strChars]
            simp
          rw [hshape]
          have hres := parseFields_cons fuel
            (escChars k.data ++ '"' :: (':' :: (stringifyChars v ++
              ',' :: (fieldsChars (q2 :: qs2) ++ rbrace :: rest))))
            (stringifyChars v ++ ',' :: (fieldsChars (q2 :: qs2) ++ rbrace :: rest))
            (fieldsChars (q2 :: qs2) ++ rbrace :: rest) k.data v
            (parseStringBody_escChars k.data _) hpv
          rw [mk_data, hpf] at hres
          rw [hres]
          rfl

/-- Serialized elements are at least as long as the fuel they need. -/
theorem elems_fuel_le (xs : List Json)
    (ih : ∀ j ∈ xs, jsonFuel j ≤ 2 * (stringifyChars j).length) :
    elemsFuel xs ≤ 2 * (elemsChars xs).length + 2 := by
  induction xs with
  | nil => simp [elemsFuel]
  | cons x xs ihl =>
    have hx := ih x (List.mem_cons_self _ _)
    cases xs with
    | nil =>
      rw [elemsChars_single]
      simp only [elemsFuel]
      omega
    | cons y ys =>
      have ht := ihl fun j hj => ih j (List.mem_cons_of_mem _ hj)
      rw [elemsChars_cons]
      simp only [elemsFuel, List.length_append, List.length_cons] at ht ⊢
      omega

/-- Serialized fields are at least as long as the fuel they need. -/
theorem fields_fuel_le (fs : List (String × Json))
    (ih : ∀ q ∈ fs, jsonFuel q.2 ≤ 2 * (stringifyChars q.2).length) :
    fieldsFuel fs ≤ 2 * (fieldsChars fs).length + 2 := by
  induction fs with
  | nil => simp [fieldsFuel]
  | cons q fs ihl =>
    obtain ⟨k, v⟩ := q
    have hv : jsonFuel v ≤ 2 * (stringifyChars v).length := ih (k, v) (List.mem_cons_self _ _)
    cases fs with
    | nil =>
      rw [fieldsChars_single]
      simp only [fieldsFuel, List.length_append, List.length_cons]
      omega
    | cons q2 qs2 =>
      have ht := ihl fun q hq => ih q (List.mem_cons_of_mem _ hq)
      rw [fieldsChars_cons]
      simp only [fieldsFuel, List.length_append, List.length_cons] at ht ⊢
      omega

/-- A serializable value never needs more fuel than twice its serialized
length. -/
theorem stringify_fuel_le {j : Json} (hj : SJson j) :
    jsonFuel j ≤ 2 * (stringifyChars j).length := by
  induction hj with
  | str s =>
    rw [stringifyChars_str, strChars]
    simp only [jsonFuel, List.length_cons, List.length_append]
    omega
  | arr h ih =>
    rename_i xs
    have he := elems_fuel_le xs ih
    rw [stringifyChars_arr]
    simp only [jsonFuel, List.length_append, List.length_cons] at he ⊢
    omega
  | obj h ih =>
    rename_i fs
    have he := fields_fuel_le fs ih
    rw [stringifyChars_obj]
    simp only [jsonFuel, List.length_append, List.length_cons] at he ⊢
    omega

/-- The parse model inverts the stringify model on every string/array/object
value. -/
theorem jsonParse_stringify {j : Json} (hj : SJson j) :
    jsonParse (jsonStringify j) = some j := by
  have hfuel : jsonFuel j ≤ 2 * (stringifyChars j).length + 1 := by
    have := stringify_fuel_le hj
    omega
  have hp := (parse_stringify_fuel (2 * (stringifyChars j).length + 1)).1 j hj [] hfuel
  rw [List.append_nil] at hp
  unfold jsonParse jsonStringify
  simp only [mk_data]
  rw [hp]
  rfl

/-- Attachment records serialize into the string/array/object fragment. -/
theorem SJson_attachmentJson (a : Attachment) : SJson (attachmentJson a) := by
  refine SJson.obj ?_
  intro p hp
  simp only [attachmentJson, List.mem_cons, List.not_mem_nil, or_false] at hp
  rcases hp with h | h | h | h <;> subst h <;> exact SJson.str _

/-- The serialized document payload is in the string/array/object
fragment. -/
theorem SJson_docJson (t : String) (l : List Attachment) :
    SJson (docJson t (l.map attachmentJson)) := by
  refine SJson.obj ?_
  intro p hp
  simp only [docJson, List.mem_cons, List.not_mem_nil, or_false] at hp
  rcases hp with h | h
  · subst h
    exact SJson.str _
  · subst h
    refine SJson.arr ?_
    intro j hj
    simp only [List.mem_map] at hj
    obtain ⟨a, -, rfl⟩ := hj
    exact SJson_attachmentJson a

/-- Two attachments with the same dynamic JSON value are equal. -/
theorem attachmentJson_injective : Function.Injective attachmentJson := by
  intro a b h
  cases a
  cases b
  simpa [attachmentJson] using h

/-- Claim C5 — round-trip: serializing a DocumentState with `syncPayload`'s
wire format and applying the result as an inbound snapshot restores
exactly that document (text verbatim, attachments as their dynamic JSON
records, which determine the attachments uniquely), and clears
`hasUnsavedChanges`. -/
theorem serialize_roundTrip (d : DocumentState) (s : AppState) :
    (applyInbound (serializeDoc d) s).text = d.text ∧
      (applyInbound (serializeDoc d) s).attachments = d.attachments.map attachmentJson ∧
      (applyInbound (serializeDoc d) s).hasUnsavedChanges = false ∧
      (∀ d' : DocumentState, d'.text = (applyInbound (serializeDoc d) s).text →
        d'.attachments.map attachmentJson = (applyInbound (serializeDoc d) s).attachments →
        d' = d) := by
  have hparse : jsonParse (serializeDoc d) =
      some (docJson d.text (d.attachments.map attachmentJson)) :=
    jsonParse_stringify (SJson_docJson d.text d.attachments)
  have happ : applyInbound (serializeDoc d) s =
      { s with
        text := d.text
        attachments := d.attachments.map attachmentJson
        hasUnsavedChanges := false } := by
    unfold applyInbound
    rw [hparse]
    rfl
  rw [happ]
  refine ⟨rfl, rfl, rfl, ?_⟩
  intro d' h1 h2
  have hatt : d'.attachments = d.attachments :=
    List.map_injective_iff.mpr attachmentJson_injective h2
  calc d' = ⟨d'.text, d'.attachments⟩ := rfl
    _ = ⟨d.text, d.attachments⟩ := by rw [h1, hatt]
    _ = d := rfl

/-- Witness for C5 at the one-line document with no attachments
(Scenario 3 of the specification). -/
theorem serialize_roundTrip_witness :
    (applyInbound (serializeDoc ⟨"hi", []⟩) initState).text = "hi" ∧
      (applyInbound (serializeDoc ⟨"hi", []⟩) initState).attachments = [] ∧
      (⟨"hi", []⟩ : DocumentState) = ⟨"hi", []⟩ := by
  have h := serialize_roundTrip ⟨"hi", []⟩ initState
  refine ⟨h.1, ?_, ?_⟩
  · rw [h.2.1]
    rfl
  · exact h.2.2.2 ⟨"hi", []⟩ h.1.symm (by rw [h.2.1])

end Forshare
